import Mathlib

/-
Shallow embedding of `src/crates/llm-chain/src/parameters.rs`.

The Rust file defines `Parameters`, an ordered string-keyed container
(`BTreeMap<String, Box<dyn ParamFull>>`) of type-erased renderable value
cells, with copy-on-write mutators (`with`, `with_dynamic`, `with_text`,
`with_text_from_output`, `combine`), lookup accessors (`get`, `get_text`),
a render-based `PartialEq`, a projection into a `tera::Context`, and
conversions from strings and key/value pair collections.

The `BTreeMap` is embedded as an association list `List (String × ParamDyn)`;
the map invariant that a `BTreeMap` value always satisfies — no duplicate
keys — is the predicate `Parameters.WF`.  Key order is irrelevant to every
observation the claims make (lookups, entry counts, render-based equality,
and the context projection viewed as a finite map), so the embedding does
not additionally track sortedness.
-/

set_option maxHeartbeats 1000000

namespace LlmChain

/-- Embeds the trait-object type `Box<dyn ParamFull>`: a type-erased value
cell.  The `string` constructor is the built-in `StringParam`; the `custom`
constructor stands for an arbitrary user payload implementing `Param`,
abstracted by its debug representation and by the string its `get` method
renders (the only capabilities the container ever uses). -/
inductive ParamDyn : Type where
  | string (value : String)
  | custom (debug : String) (rendered : String)
deriving DecidableEq

/-- Embeds `Param::get`: render the cell to a string.  `StringParam::get`
returns a clone of the stored string. -/
def ParamDyn.get : ParamDyn → String
  | .string value => value
  | .custom _ rendered => rendered

/-- Embeds `ParamFull::boxed_clone`: produce a deep copy of the cell
(`T::clone` on the underlying payload).  On immutable values a deep copy is
a structurally equal value. -/
def ParamDyn.boxed_clone : ParamDyn → ParamDyn
  | .string value => .string value
  | .custom debug rendered => .custom debug rendered

/-- Embeds `BTreeMap::insert` on the association-list model: replace the
binding if the key is already present, otherwise add the new binding. -/
def insertEntry {α : Type} (k : String) (v : α) : List (String × α) → List (String × α)
  | [] => [(k, v)]
  | (k', v') :: rest => if k' = k then (k, v) :: rest else (k', v') :: insertEntry k v rest

/-- Embeds `BTreeMap::get`: the value bound to `k`, if any. -/
def lookupEntry {α : Type} (k : String) : List (String × α) → Option α
  | [] => none
  | (k', v') :: rest => if k' = k then some v' else lookupEntry k rest

/-- First-some choice on options, used to state lookup facts about maps
built by successive inserts. -/
def oalt {α : Type} : Option α → Option α → Option α
  | some a, _ => some a
  | none, b => b

/-- Embeds `struct Parameters`: a map from string keys to value cells. -/
structure Parameters : Type where
  map : List (String × ParamDyn)
deriving DecidableEq

/-- Well-formedness carried by every Rust `Parameters` value: a `BTreeMap`
never holds duplicate keys. -/
abbrev Parameters.WF (p : Parameters) : Prop := (p.map.map Prod.fst).Nodup

/-- Embeds `const TEXT_KEY: &str = "text"`. -/
def TEXT_KEY : String := "text"

/-- Embeds `Parameters::new` (`Default::default()`): the empty map. -/
def Parameters.new : Parameters := ⟨[]⟩

/-- Embeds `Parameters::new_with_text`: a fresh map with the single key
`TEXT_KEY` bound to a `StringParam`. -/
def Parameters.new_with_text (text : String) : Parameters :=
  ⟨insertEntry TEXT_KEY (ParamDyn.string text) []⟩

/-- Embeds `impl Clone for Parameters`: iterate the entries, inserting a
deep copy of every cell into a fresh map. -/
def Parameters.clone (p : Parameters) : Parameters :=
  ⟨p.map.foldl (fun acc kv => insertEntry kv.1 (ParamDyn.boxed_clone kv.2) acc) []⟩

/-- Embeds `Parameters::with`: clone `self`, then insert a `StringParam`
cell at `key`. -/
def Parameters.«with» (p : Parameters) (key value : String) : Parameters :=
  ⟨insertEntry key (ParamDyn.string value) (Parameters.clone p).map⟩

/-- Embeds `Parameters::with_dynamic`: clone `self`, then insert
`value.boxed_clone()` at `key`. -/
def Parameters.with_dynamic (p : Parameters) (key : String) (value : ParamDyn) : Parameters :=
  ⟨insertEntry key (ParamDyn.boxed_clone value) (Parameters.clone p).map⟩

/-- Embeds `Parameters::with_text`: `self.with(TEXT_KEY, text)`. -/
def Parameters.with_text (p : Parameters) (text : String) : Parameters :=
  p.«with» TEXT_KEY text

/-- Modelled from the spec: the external `Output` collaborator
(`src/crates/llm-chain/src/output.rs` is not part of the source fragment)
exposes one operation, `primary_textual_output`, an async call yielding an
optional text; the provider is abstracted by the optional text it yields. -/
abbrev PrimaryTextualOutput : Type := Option String

/-- Embeds `Parameters::with_text_from_output`:
`output.primary_textual_output().await.map_or(self.clone(), |text| self.with_text(text))`. -/
def Parameters.with_text_from_output (p : Parameters) (output : PrimaryTextualOutput) : Parameters :=
  Option.elim output (Parameters.clone p) (fun text => p.with_text text)

/-- Embeds `Parameters::combine`: clone `self`, then for every entry of
`other` in order insert a deep copy of that entry's cell. -/
def Parameters.combine (p other : Parameters) : Parameters :=
  ⟨other.map.foldl (fun acc kv => insertEntry kv.1 (ParamDyn.boxed_clone kv.2) acc)
    (Parameters.clone p).map⟩

/-- Embeds `Parameters::get`: render the cell at `key` if present. -/
def Parameters.get (p : Parameters) (key : String) : Option String :=
  (lookupEntry key p.map).map ParamDyn.get

/-- Embeds `Parameters::get_text`: `self.get(TEXT_KEY)`. -/
def Parameters.get_text (p : Parameters) : Option String :=
  p.get TEXT_KEY

/-- Embeds `Parameters::to_tera`: a fresh `tera::Context` (modelled as the
finite string map it holds), into which every entry's rendered text is
inserted under its key. -/
def Parameters.to_tera (p : Parameters) : List (String × String) :=
  p.map.foldl (fun context kv => insertEntry kv.1 (ParamDyn.get kv.2) context) []

/-- Embeds `Parameters::from_seq`: a fresh map, into which each pair of the
sequence is inserted in order as a `StringParam` cell. -/
def Parameters.from_seq (m : List (String × String)) : Parameters :=
  ⟨m.foldl (fun acc kv => insertEntry kv.1 (ParamDyn.string kv.2) acc) []⟩

/-- Embeds `impl From<&str> for Parameters` (and `From<String>`):
`Parameters::new_with_text(text)`. -/
def Parameters.fromStr (text : String) : Parameters :=
  Parameters.new_with_text text

/-- Embeds `impl From<Vec<(&str, &str)>> for Parameters` (and the other
pair-collection conversions): `Parameters::from_seq(data)`. -/
def Parameters.fromPairs (data : List (String × String)) : Parameters :=
  Parameters.from_seq data

/-- Embeds `impl PartialEq for Parameters`: equal key counts, and every
entry of `self` has a cell in `other` under the same key rendering the
identical string. -/
def Parameters.eq (p other : Parameters) : Bool :=
  (p.map.length == other.map.length) &&
    p.map.all fun kv =>
      match lookupEntry kv.1 other.map with
      | some other_v => kv.2.get == other_v.get
      | none => false

/-! ### Basic lemmas about the association-list map -/

@[simp]
theorem ParamDyn.boxed_clone_eq (d : ParamDyn) : d.boxed_clone = d := by
  cases d <;> rfl

theorem lookup_insertEntry {α : Type} (k j : String) (v : α) (m : List (String × α)) :
    lookupEntry j (insertEntry k v m) = if k = j then some v else lookupEntry j m := by
  induction m with
  | nil => simp [insertEntry, lookupEntry]
  | cons kv rest ih =>
    obtain ⟨k', v'⟩ := kv
    by_cases hk : k' = k
    · subst hk
      by_cases hj : k' = j <;> simp [insertEntry, lookupEntry, hj]
    · by_cases hj : k' = j
      · subst hj
        have : ¬ k = k' := fun h => hk h.symm
        simp [insertEntry, lookupEntry, hk, this]
      · simp [insertEntry, lookupEntry, hk, hj, ih]

theorem lookup_append {α : Type} (k : String) (xs ys : List (String × α)) :
    lookupEntry k (xs ++ ys) = oalt (lookupEntry k xs) (lookupEntry k ys) := by
  induction xs with
  | nil => simp [lookupEntry, oalt]
  | cons kv rest ih =>
    obtain ⟨k', v'⟩ := kv
    by_cases h : k' = k <;> simp [lookupEntry, oalt, h, ih]

theorem oalt_assoc {α : Type} (a b c : Option α) :
    oalt (oalt a b) c = oalt a (oalt b c) := by
  cases a <;> cases b <;> rfl

@[simp]
theorem oalt_none_left {α : Type} (b : Option α) : oalt none b = b := rfl

@[simp]
theorem oalt_none_right {α : Type} (a : Option α) : oalt a none = a := by
  cases a <;> rfl

theorem oalt_ite_none {α : Type} (c : Prop) [Decidable c] (x : α) (y : Option α) :
    oalt (if c then some x else none) y = if c then some x else y := by
  by_cases h : c <;> simp [h, oalt]

/-- The membership criterion for lookups. -/
theorem lookup_isSome_iff {α : Type} (k : String) (m : List (String × α)) :
    (lookupEntry k m).isSome ↔ k ∈ m.map Prod.fst := by
  induction m with
  | nil => simp [lookupEntry]
  | cons kv rest ih =>
    obtain ⟨k', v'⟩ := kv
    by_cases h : k' = k <;> simp [lookupEntry, h, ih]
    exact fun hk => (h hk.symm).elim

theorem lookup_eq_none_of_not_mem {α : Type} {k : String} {m : List (String × α)}
    (h : k ∉ m.map Prod.fst) : lookupEntry k m = none := by
  cases hl : lookupEntry k m with
  | none => rfl
  | some v =>
    exact absurd ((lookup_isSome_iff k m).mp (by simp [hl])) h

theorem insertEntry_of_not_mem {α : Type} {k : String} (v : α) {m : List (String × α)}
    (h : k ∉ m.map Prod.fst) : insertEntry k v m = m ++ [(k, v)] := by
  induction m with
  | nil => rfl
  | cons kv rest ih =>
    obtain ⟨k', v'⟩ := kv
    simp only [List.map_cons, List.mem_cons] at h
    push_neg at h
    have hk : k' ≠ k := fun hkk => h.1 hkk.symm
    simp [insertEntry, hk, ih h.2]

/-- A generic description of the maps the Rust code builds by iterating one
map's entries and inserting (an image of) each into an accumulator: the
lookup is the last binding inserted, else the accumulator's binding. -/
theorem lookup_foldl_insert {α β : Type} (g : β → α) :
    ∀ (l : List (String × β)) (acc : List (String × α)) (k : String),
      lookupEntry k (l.foldl (fun a kv => insertEntry kv.1 (g kv.2) a) acc)
        = oalt (lookupEntry k ((l.map fun kv => (kv.1, g kv.2)).reverse)) (lookupEntry k acc) := by
  intro l
  induction l with
  | nil => intro acc k; simp [lookupEntry]
  | cons kv rest ih =>
    intro acc k
    obtain ⟨k1, v1⟩ := kv
    simp only [List.foldl_cons, List.map_cons, List.reverse_cons]
    rw [ih, lookup_append, lookup_insertEntry, oalt_assoc]
    simp only [lookupEntry, oalt_ite_none]

theorem keys_insertEntry {α : Type} (k : String) (v : α) (m : List (String × α)) :
    (insertEntry k v m).map Prod.fst
      = if k ∈ m.map Prod.fst then m.map Prod.fst else m.map Prod.fst ++ [k] := by
  induction m with
  | nil => simp [insertEntry]
  | cons kv rest ih =>
    obtain ⟨k', v'⟩ := kv
    by_cases h : k' = k
    · subst h
      simp [insertEntry]
    · have : ¬ k = k' := fun hk => h hk.symm
      by_cases hm : k ∈ rest.map Prod.fst <;>
        simp [insertEntry, h, this, hm, ih]

theorem nodup_insertEntry {α : Type} (k : String) (v : α) {m : List (String × α)}
    (h : (m.map Prod.fst).Nodup) : ((insertEntry k v m).map Prod.fst).Nodup := by
  rw [keys_insertEntry]
  by_cases hm : k ∈ m.map Prod.fst
  · simpa [hm] using h
  · simp only [hm, if_false]
    rw [List.nodup_append]
    refine ⟨h, List.nodup_singleton _, ?_⟩
    intro x hx hx'
    simp only [List.mem_singleton] at hx'
    subst hx'
    exact hm hx

theorem nodup_foldl_insert {α β : Type} (g : β → α) :
    ∀ (l : List (String × β)) (acc : List (String × α)),
      (acc.map Prod.fst).Nodup →
      ((l.foldl (fun a kv => insertEntry kv.1 (g kv.2) a) acc).map Prod.fst).Nodup := by
  intro l
  induction l with
  | nil => intro acc h; simpa using h
  | cons kv rest ih =>
    intro acc h
    exact ih _ (nodup_insertEntry kv.1 (g kv.2) h)

/-- Folding inserts over keys disjoint from the accumulator just appends the
image entries. -/
theorem foldl_insert_of_nodup {α β : Type} (g : β → α) :
    ∀ (l : List (String × β)) (acc : List (String × α)),
      (acc.map Prod.fst ++ l.map Prod.fst).Nodup →
      l.foldl (fun a kv => insertEntry kv.1 (g kv.2) a) acc
        = acc ++ (l.map fun kv => (kv.1, g kv.2)) := by
  intro l
  induction l with
  | nil => intro acc h; simp
  | cons kv rest ih =>
    intro acc h
    obtain ⟨k1, v1⟩ := kv
    have h' : (k1 :: (acc.map Prod.fst ++ rest.map Prod.fst)).Nodup := by
      refine (List.Perm.nodup_iff ?_).mp h
      simp
    have hk1 : k1 ∉ acc.map Prod.fst := by
      intro hmem
      exact (List.nodup_cons.mp h').1 (by simp [hmem])
    simp only [List.foldl_cons, List.map_cons]
    rw [insertEntry_of_not_mem (g v1) hk1, ih]
    · simp
    · have hp : ((acc.map Prod.fst ++ [k1]) ++ rest.map Prod.fst).Perm
          (k1 :: (acc.map Prod.fst ++ rest.map Prod.fst)) := by
        simp
      have hres := (List.Perm.nodup_iff hp).mpr h'
      simpa using hres

/-- Reversal does not change lookups in a duplicate-free map. -/
theorem lookup_reverse {α : Type} (k : String) :
    ∀ {m : List (String × α)}, (m.map Prod.fst).Nodup →
      lookupEntry k m.reverse = lookupEntry k m := by
  intro m
  induction m with
  | nil => intro _; rfl
  | cons kv rest ih =>
    intro h
    obtain ⟨k1, v1⟩ := kv
    simp only [List.map_cons, List.nodup_cons] at h
    rw [List.reverse_cons, lookup_append, ih h.2]
    by_cases hk : k1 = k
    · subst hk
      rw [lookup_eq_none_of_not_mem h.1]
      simp [lookupEntry]
    · simp [lookupEntry, hk]

theorem lookup_of_mem {α : Type} :
    ∀ {m : List (String × α)} {kv : String × α}, (m.map Prod.fst).Nodup →
      kv ∈ m → lookupEntry kv.1 m = some kv.2 := by
  intro m
  induction m with
  | nil => intro kv _ hmem; cases hmem
  | cons hd rest ih =>
    intro kv h hmem
    obtain ⟨k1, v1⟩ := hd
    simp only [List.map_cons, List.nodup_cons] at h
    rcases List.mem_cons.mp hmem with heq | htl
    · subst heq
      simp [lookupEntry]
    · have hne : k1 ≠ kv.1 := by
        intro hk
        exact h.1 (hk ▸ List.mem_map_of_mem Prod.fst htl)
      simp [lookupEntry, hne, ih h.2 htl]

theorem mem_of_lookup {α : Type} :
    ∀ {m : List (String × α)} {k : String} {v : α},
      lookupEntry k m = some v → (k, v) ∈ m := by
  intro m
  induction m with
  | nil => intro k v h; simp [lookupEntry] at h
  | cons hd rest ih =>
    intro k v h
    obtain ⟨k1, v1⟩ := hd
    by_cases hk : k1 = k
    · subst hk
      have hl : lookupEntry k1 ((k1, v1) :: rest) = some v1 := by simp [lookupEntry]
      rw [hl] at h
      cases h
      exact List.mem_cons_self _ _
    · simp only [lookupEntry, if_neg hk] at h
      exact List.mem_cons_of_mem _ (ih h)

/-- Lookup commutes with mapping a function over the values. -/
theorem lookup_map_entries {α β : Type} (g : β → α) (k : String) :
    ∀ (m : List (String × β)),
      lookupEntry k (m.map fun kv => (kv.1, g kv.2)) = (lookupEntry k m).map g := by
  intro m
  induction m with
  | nil => rfl
  | cons kv rest ih =>
    obtain ⟨k1, v1⟩ := kv
    by_cases hk : k1 = k <;> simp [lookupEntry, hk, ih]

theorem lookup_eq_find {α : Type} (k : String) :
    ∀ (m : List (String × α)),
      lookupEntry k m = (m.find? fun kv => kv.1 == k).map Prod.snd := by
  intro m
  induction m with
  | nil => rfl
  | cons kv rest ih =>
    obtain ⟨k1, v1⟩ := kv
    by_cases hk : k1 = k <;> simp [lookupEntry, List.find?_cons, hk, ih]

theorem Parameters.eq_of_map_eq : ∀ {p q : Parameters}, p.map = q.map → p = q := by
  intro p q h
  cases p
  cases q
  cases h
  rfl

/-- With no duplicate keys, `Clone::clone` rebuilds exactly the same map. -/
theorem Parameters.clone_map (p : Parameters) (hp : p.WF) : (Parameters.clone p).map = p.map := by
  show p.map.foldl (fun acc kv => insertEntry kv.1 (ParamDyn.boxed_clone kv.2) acc) [] = p.map
  rw [foldl_insert_of_nodup]
  · simp
  · simpa using hp

theorem Parameters.clone_eq (p : Parameters) (hp : p.WF) : Parameters.clone p = p :=
  Parameters.eq_of_map_eq (Parameters.clone_map p hp)

/-- The Rust `PartialEq` is reflexive on well-formed stores. -/
theorem Parameters.eq_refl_of_wf (p : Parameters) (hp : p.WF) : Parameters.eq p p = true := by
  show ((p.map.length == p.map.length) && _) = true
  simp only [beq_self_eq_true, Bool.true_and, List.all_eq_true]
  intro kv hkv
  rw [lookup_of_mem hp hkv]
  simp

/-- Characterization of `Parameters::combine` lookups: the right store's
binding wins, falling back to the left store's binding. -/
theorem Parameters.combine_get (p q : Parameters) (hp : p.WF) (hq : q.WF) (k : String) :
    (p.combine q).get k = oalt (q.get k) (p.get k) := by
  have hmap : (p.combine q).map
      = q.map.foldl (fun acc kv => insertEntry kv.1 (ParamDyn.boxed_clone kv.2) acc)
          (Parameters.clone p).map := rfl
  simp only [Parameters.get, hmap]
  rw [lookup_foldl_insert, Parameters.clone_map p hp]
  simp only [ParamDyn.boxed_clone_eq, Prod.mk.eta, List.map_id, List.map_id']
  rw [lookup_reverse k hq]
  cases lookupEntry k q.map <;> simp [oalt]

/-- Characterization of `Parameters::from_seq` lookups: the last binding
for a key in the sequence wins. -/
theorem Parameters.from_seq_lookup (l : List (String × String)) (k : String) :
    lookupEntry k (Parameters.from_seq l).map
      = (lookupEntry k l.reverse).map ParamDyn.string := by
  show lookupEntry k (l.foldl (fun acc kv => insertEntry kv.1 (ParamDyn.string kv.2) acc) []) = _
  rw [lookup_foldl_insert]
  rw [show lookupEntry k ([] : List (String × ParamDyn)) = none from rfl, oalt_none_right]
  rw [← List.map_reverse, lookup_map_entries]

/-! ### Claims -/

/-- C1: for every Parameters store `p`, every string key `k` and every
string value `v`, `p.with(k, v).get(k)` returns `Some(v)`: `with` inserts
(or replaces) a text-backed cell at `k` in a duplicate of `p`, and `get`
renders it back as exactly the inserted string. -/
theorem claim_with_get (p : Parameters) (k v : String) :
    (p.«with» k v).get k = some v := by
  show (lookupEntry k (insertEntry k (ParamDyn.string v) (Parameters.clone p).map)).map
      ParamDyn.get = some v
  rw [lookup_insertEntry]
  simp [ParamDyn.get]

/-- C4: for every Parameters store `p`, every value `t`, and every key `k`
not equal to `"text"`, `p.with_text(t).get(k) == p.get(k)`: setting the
default text slot leaves every other key's resolved value unchanged. -/
theorem claim_with_text_frame (p : Parameters) (t k : String) (hp : p.WF) (hk : k ≠ TEXT_KEY) :
    (p.with_text t).get k = p.get k := by
  show (lookupEntry k (insertEntry TEXT_KEY (ParamDyn.string t) (Parameters.clone p).map)).map
      ParamDyn.get = p.get k
  rw [lookup_insertEntry, Parameters.clone_map p hp, if_neg (fun h => hk h.symm)]
  rfl

theorem claim_with_text_frame_witness :
    (Parameters.new.with_text "a").get "b" = Parameters.new.get "b" :=
  claim_with_text_frame Parameters.new "a" "b" (by decide) (by decide)

/-- C5: every mutator (`with`, `with_dynamic`, `with_text`,
`with_text_from_output`, `combine`) is non-destructive: each returns a new
store whose map is a pure insertion (or merge) into a deep duplicate of the
receiver's entries, cloning reproduces the receiver exactly
(`Parameters.clone p1 = p1` and `boxed_clone d = d`), so derived stores
share no state — in particular `p1.with k v` always resolves `k` to `v`,
unaffected by any further derivation from `p1`. -/
theorem claim_mutators_nondestructive (p1 q : Parameters) (k v t : String)
    (d : ParamDyn) (hp : p1.WF) :
    Parameters.clone p1 = p1 ∧
    ParamDyn.boxed_clone d = d ∧
    (p1.«with» k v).map = insertEntry k (ParamDyn.string v) p1.map ∧
    (p1.with_dynamic k d).map = insertEntry k d p1.map ∧
    (p1.with_text t).map = insertEntry TEXT_KEY (ParamDyn.string t) p1.map ∧
    (p1.with_text_from_output (some t)).map = insertEntry TEXT_KEY (ParamDyn.string t) p1.map ∧
    (p1.with_text_from_output none).map = p1.map ∧
    (p1.combine q).map = q.map.foldl (fun acc kv => insertEntry kv.1 kv.2 acc) p1.map ∧
    (p1.«with» k v).get k = some v := by
  have hclone := Parameters.clone_map p1 hp
  refine ⟨Parameters.clone_eq p1 hp, ParamDyn.boxed_clone_eq d, ?_, ?_, ?_, ?_, ?_, ?_, ?_⟩
  · show insertEntry k (ParamDyn.string v) (Parameters.clone p1).map = _
    rw [hclone]
  · show insertEntry k (ParamDyn.boxed_clone d) (Parameters.clone p1).map = _
    rw [hclone, ParamDyn.boxed_clone_eq]
  · show insertEntry TEXT_KEY (ParamDyn.string t) (Parameters.clone p1).map = _
    rw [hclone]
  · show insertEntry TEXT_KEY (ParamDyn.string t) (Parameters.clone p1).map = _
    rw [hclone]
  · exact hclone
  · show q.map.foldl (fun acc kv => insertEntry kv.1 (ParamDyn.boxed_clone kv.2) acc)
        (Parameters.clone p1).map = _
    rw [hclone]
    simp only [ParamDyn.boxed_clone_eq]
  · show (lookupEntry k (insertEntry k (ParamDyn.string v) (Parameters.clone p1).map)).map
        ParamDyn.get = some v
    rw [lookup_insertEntry]
    simp [ParamDyn.get]

theorem claim_mutators_nondestructive_witness :
    Parameters.clone (Parameters.new_with_text "x") = Parameters.new_with_text "x" ∧
    ParamDyn.boxed_clone (ParamDyn.custom "D" "r") = ParamDyn.custom "D" "r" ∧
    ((Parameters.new_with_text "x").«with» "k" "v").map
      = insertEntry "k" (ParamDyn.string "v") (Parameters.new_with_text "x").map ∧
    ((Parameters.new_with_text "x").with_dynamic "k" (ParamDyn.custom "D" "r")).map
      = insertEntry "k" (ParamDyn.custom "D" "r") (Parameters.new_with_text "x").map ∧
    ((Parameters.new_with_text "x").with_text "t").map
      = insertEntry TEXT_KEY (ParamDyn.string "t") (Parameters.new_with_text "x").map ∧
    ((Parameters.new_with_text "x").with_text_from_output (some "t")).map
      = insertEntry TEXT_KEY (ParamDyn.string "t") (Parameters.new_with_text "x").map ∧
    ((Parameters.new_with_text "x").with_text_from_output none).map
      = (Parameters.new_with_text "x").map ∧
    ((Parameters.new_with_text "x").combine Parameters.new).map
      = Parameters.new.map.foldl (fun acc kv => insertEntry kv.1 kv.2 acc)
          (Parameters.new_with_text "x").map ∧
    ((Parameters.new_with_text "x").«with» "k" "v").get "k" = some "v" :=
  claim_mutators_nondestructive (Parameters.new_with_text "x") Parameters.new "k" "v" "t"
    (ParamDyn.custom "D" "r") (by decide)

/-- C6: for every Parameters store `p` and every key `k` not present in
`p`, `p.get(k)` returns `None` rather than raising an error; in particular
`Parameters::new().get("missing") == None`, and `get_text()` on a store
without a `"text"` entry is `None`. -/
theorem claim_get_missing (p q : Parameters) (k : String)
    (hk : k ∉ p.map.map Prod.fst) (hq : TEXT_KEY ∉ q.map.map Prod.fst) :
    p.get k = none ∧ Parameters.new.get "missing" = none ∧ q.get_text = none := by
  refine ⟨?_, rfl, ?_⟩
  · show (lookupEntry k p.map).map ParamDyn.get = none
    rw [lookup_eq_none_of_not_mem hk]
    rfl
  · show (lookupEntry TEXT_KEY q.map).map ParamDyn.get = none
    rw [lookup_eq_none_of_not_mem hq]
    rfl

theorem claim_get_missing_witness :
    Parameters.new.get "missing" = none ∧ Parameters.new.get "missing" = none ∧
      Parameters.new.get_text = none :=
  claim_get_missing Parameters.new Parameters.new "missing"
    (by decide) (by decide)

/-- C7: for every Parameters store `p` and every output provider: if
`primary_textual_output` yields `Some(t)`, then `with_text_from_output`
equals `p.with_text(t)`; if it yields `None`, the result is an unchanged
duplicate of `p` — in particular its `get_text()` equals `p.get_text()`
from before the call. -/
theorem claim_with_text_from_output_spec (p : Parameters) (t : String) (hp : p.WF) :
    p.with_text_from_output (some t) = p.with_text t ∧
    p.with_text_from_output none = Parameters.clone p ∧
    (p.with_text_from_output none).get_text = p.get_text := by
  refine ⟨rfl, rfl, ?_⟩
  show (Parameters.clone p).get_text = p.get_text
  rw [Parameters.clone_eq p hp]

theorem claim_with_text_from_output_spec_witness :
    Parameters.new.with_text_from_output (some "hi") = Parameters.new.with_text "hi" ∧
    Parameters.new.with_text_from_output none = Parameters.clone Parameters.new ∧
    (Parameters.new.with_text_from_output none).get_text = Parameters.new.get_text :=
  claim_with_text_from_output_spec Parameters.new "hi" (by decide)

/-- C2: for every pair of Parameters stores `p` and `q` and every key `k`,
`p.combine(q).get(k)` equals `q.get(k)` when `k` is present in `q`, and
equals `p.get(k)` when `k` is absent from `q`: combine is a right-biased
key-wise union; in particular
`fromText("x").combine(fromText("y")).getText() == Some("y")`. -/
theorem claim_combine_right_bias (p q : Parameters) (hp : p.WF) (hq : q.WF) (k : String) :
    ((q.get k).isSome → (p.combine q).get k = q.get k) ∧
    (q.get k = none → (p.combine q).get k = p.get k) ∧
    ((Parameters.new_with_text "x").combine (Parameters.new_with_text "y")).get_text
      = some "y" := by
  refine ⟨?_, ?_, by decide⟩
  · intro h
    rw [Parameters.combine_get p q hp hq k]
    cases hqk : q.get k with
    | none => rw [hqk] at h; cases h
    | some v => rfl
  · intro h
    rw [Parameters.combine_get p q hp hq k, h]
    rfl

theorem claim_combine_right_bias_witness :
    ((((Parameters.new_with_text "y").get "a").isSome →
        ((Parameters.fromPairs [("a", "1")]).combine (Parameters.new_with_text "y")).get "a"
          = (Parameters.new_with_text "y").get "a") ∧
      ((Parameters.new_with_text "y").get "a" = none →
        ((Parameters.fromPairs [("a", "1")]).combine (Parameters.new_with_text "y")).get "a"
          = (Parameters.fromPairs [("a", "1")]).get "a") ∧
      ((Parameters.new_with_text "x").combine (Parameters.new_with_text "y")).get_text
        = some "y") :=
  claim_combine_right_bias (Parameters.fromPairs [("a", "1")]) (Parameters.new_with_text "y")
    (by decide) (by decide) "a"

/-- C9: for every Parameters store `p`, the render-context projection
`to_tera` produces a context holding, for every key `k` of `p`, exactly the
entry mapping `k` to the string `p.get(k)` renders, and no other entries —
string-valued for every payload type. -/
theorem claim_to_tera (p : Parameters) (hp : p.WF) :
    p.to_tera = (p.map.map fun kv => (kv.1, kv.2.get)) ∧
    ∀ k, lookupEntry k p.to_tera = p.get k := by
  have hmap : p.to_tera = p.map.map fun kv => (kv.1, ParamDyn.get kv.2) := by
    show p.map.foldl (fun context kv => insertEntry kv.1 (ParamDyn.get kv.2) context) [] = _
    rw [foldl_insert_of_nodup]
    · simp
    · simpa using hp
  refine ⟨hmap, ?_⟩
  intro k
  rw [hmap, lookup_map_entries]
  rfl

theorem claim_to_tera_witness :
    (Parameters.fromPairs [("a", "1")]).to_tera
      = ((Parameters.fromPairs [("a", "1")]).map.map fun kv => (kv.1, kv.2.get)) :=
  (claim_to_tera (Parameters.fromPairs [("a", "1")]) (by decide)).1

/-- C10: the empty store is a two-sided identity for combine up to the
container's resolved-value equality: `p.combine(Parameters::new()) == p`
and `Parameters::new().combine(p) == p`. -/
theorem claim_combine_identity (p : Parameters) (hp : p.WF) :
    Parameters.eq (p.combine Parameters.new) p = true ∧
    Parameters.eq (Parameters.new.combine p) p = true := by
  constructor
  · have h1 : p.combine Parameters.new = Parameters.clone p := rfl
    rw [h1, Parameters.clone_eq p hp]
    exact Parameters.eq_refl_of_wf p hp
  · have h2 : (Parameters.new.combine p).map
        = p.map.foldl (fun acc kv => insertEntry kv.1 (ParamDyn.boxed_clone kv.2) acc) [] := rfl
    have h3 : (Parameters.new.combine p).map = p.map := by
      rw [h2, foldl_insert_of_nodup]
      · simp
      · simpa using hp
    rw [Parameters.eq_of_map_eq h3]
    exact Parameters.eq_refl_of_wf p hp

theorem claim_combine_identity_witness :
    Parameters.eq ((Parameters.new_with_text "x").combine Parameters.new)
        (Parameters.new_with_text "x") = true ∧
    Parameters.eq (Parameters.new.combine (Parameters.new_with_text "x"))
        (Parameters.new_with_text "x") = true :=
  claim_combine_identity (Parameters.new_with_text "x") (by decide)

/-- C8: conversions round-trip through accessors:
`Parameters::from("hello").get_text() == Some("hello")`;
`Parameters::from(vec![("a","1"),("b","2")])` has exactly two keys with
`get("a") == Some("1")` and `get("b") == Some("2")`; and pair-sequence
construction gives one entry per distinct key (no duplicate keys, and a key
occurs iff it occurs in the sequence), with later duplicate keys in the
sequence overriding earlier ones (the lookup is the last value paired with
the key). -/
theorem claim_conversions (l : List (String × String)) (k : String) :
    (Parameters.fromStr "hello").get_text = some "hello" ∧
    (Parameters.fromPairs [("a", "1"), ("b", "2")]).map.length = 2 ∧
    (Parameters.fromPairs [("a", "1"), ("b", "2")]).get "a" = some "1" ∧
    (Parameters.fromPairs [("a", "1"), ("b", "2")]).get "b" = some "2" ∧
    ((Parameters.from_seq l).map.map Prod.fst).Nodup ∧
    (∀ j, j ∈ (Parameters.from_seq l).map.map Prod.fst ↔ j ∈ l.map Prod.fst) ∧
    (Parameters.from_seq l).get k = (l.reverse.find? fun kv => kv.1 == k).map Prod.snd := by
  refine ⟨by decide, by decide, by decide, by decide, ?_, ?_, ?_⟩
  · exact nodup_foldl_insert _ l [] (by simp)
  · intro j
    have h1 : ((lookupEntry j l.reverse).map ParamDyn.string).isSome
        = (lookupEntry j l.reverse).isSome := by
      cases lookupEntry j l.reverse <;> rfl
    rw [← lookup_isSome_iff, Parameters.from_seq_lookup, h1, lookup_isSome_iff]
    simp [List.mem_map, List.mem_reverse]
  · show (lookupEntry k (Parameters.from_seq l).map).map ParamDyn.get = _
    rw [Parameters.from_seq_lookup, lookup_eq_find]
    simp only [Option.map_map]
    rfl

/-- The per-entry test inside the Rust `PartialEq` body, characterized. -/
theorem eq_entry_iff (m : List (String × ParamDyn)) (kv : String × ParamDyn) :
    ((match lookupEntry kv.1 m with
      | some other_v => kv.2.get == other_v.get
      | none => false) = true)
    ↔ ∃ w, lookupEntry kv.1 m = some w ∧ w.get = kv.2.get := by
  cases h : lookupEntry kv.1 m with
  | none => simp
  | some w =>
    simp only [beq_iff_eq, Option.some.injEq]
    constructor
    · intro hg
      exact ⟨w, rfl, hg.symm⟩
    · rintro ⟨w', rfl, hg⟩
      exact hg.symm

/-- C3: two Parameters stores are `PartialEq`-equal iff they have the same
number of keys and, for every entry in one, the other has the same key with
a cell rendering the identical string; in particular a store holding a
string-literal cell at `"n"` equals a store holding a custom
(`with_dynamic`) payload at `"n"` exactly when both render to the same
text — equality is over resolved values, not payload type. -/
theorem claim_eq_resolved_values (p q : Parameters) (hp : p.WF) (hq : q.WF)
    (d : ParamDyn) (s : String) :
    (Parameters.eq p q = true ↔
      (p.map.length = q.map.length ∧
        (∀ kv ∈ p.map, ∃ w, lookupEntry kv.1 q.map = some w ∧ w.get = kv.2.get) ∧
        (∀ kv ∈ q.map, ∃ w, lookupEntry kv.1 p.map = some w ∧ w.get = kv.2.get))) ∧
    (Parameters.eq (Parameters.new.«with» "n" s) (Parameters.new.with_dynamic "n" d) = true
      ↔ d.get = s) := by
  constructor
  · constructor
    · intro h
      simp only [Parameters.eq, Bool.and_eq_true, beq_iff_eq, List.all_eq_true] at h
      obtain ⟨hlen, hall⟩ := h
      have d1 : ∀ kv ∈ p.map, ∃ w, lookupEntry kv.1 q.map = some w ∧ w.get = kv.2.get :=
        fun kv hkv => (eq_entry_iff q.map kv).mp (hall kv hkv)
      refine ⟨hlen, d1, ?_⟩
      have hsub : ∀ x ∈ p.map.map Prod.fst, x ∈ q.map.map Prod.fst := by
        intro x hx
        rcases List.mem_map.mp hx with ⟨kv, hkv, rfl⟩
        obtain ⟨w, hw, -⟩ := d1 kv hkv
        exact (lookup_isSome_iff kv.1 q.map).mp (by simp [hw])
      have hfin : (p.map.map Prod.fst).toFinset = (q.map.map Prod.fst).toFinset := by
        apply Finset.eq_of_subset_of_card_le
        · intro x hx
          exact List.mem_toFinset.mpr (hsub x (List.mem_toFinset.mp hx))
        · rw [List.toFinset_card_of_nodup hp, List.toFinset_card_of_nodup hq]
          simp only [List.length_map]
          exact le_of_eq hlen.symm
      intro kv hkv
      have hkq : kv.1 ∈ q.map.map Prod.fst := List.mem_map_of_mem Prod.fst hkv
      have hkp : kv.1 ∈ p.map.map Prod.fst := by
        have hm := List.mem_toFinset.mpr hkq
        rw [← hfin] at hm
        exact List.mem_toFinset.mp hm
      obtain ⟨w, hw⟩ := Option.isSome_iff_exists.mp ((lookup_isSome_iff kv.1 p.map).mpr hkp)
      refine ⟨w, hw, ?_⟩
      obtain ⟨w', hw', hg⟩ := d1 (kv.1, w) (mem_of_lookup hw)
      have hq2 : lookupEntry kv.1 q.map = some kv.2 := lookup_of_mem hq hkv
      rw [hq2] at hw'
      cases hw'
      exact hg.symm
    · rintro ⟨hlen, h1, -⟩
      simp only [Parameters.eq, Bool.and_eq_true, beq_iff_eq, List.all_eq_true]
      exact ⟨hlen, fun kv hkv => (eq_entry_iff q.map kv).mpr (h1 kv hkv)⟩
  · have hm1 : (Parameters.new.«with» "n" s).map = [("n", ParamDyn.string s)] := rfl
    have hm2 : (Parameters.new.with_dynamic "n" d).map = [("n", d)] := by
      show insertEntry "n" (ParamDyn.boxed_clone d) [] = _
      rw [ParamDyn.boxed_clone_eq]
      rfl
    have hl : lookupEntry "n" [("n", d)] = some d := by
      show (if "n" = "n" then some d else lookupEntry "n" []) = some d
      rw [if_pos rfl]
    have heq : Parameters.eq (Parameters.new.«with» "n" s) (Parameters.new.with_dynamic "n" d)
        = (s == d.get) := by
      simp only [Parameters.eq, hm1, hm2]
      simp only [List.length_cons, List.length_nil, List.all_cons, List.all_nil, hl]
      simp [ParamDyn.get]
    rw [heq]
    constructor
    · intro h
      exact (beq_iff_eq.mp h).symm
    · intro h
      exact beq_iff_eq.mpr h.symm

theorem claim_eq_resolved_values_witness :
    Parameters.eq (Parameters.new.«with» "n" "r")
        (Parameters.new.with_dynamic "n" (ParamDyn.custom "D" "r")) = true
      ↔ (ParamDyn.custom "D" "r").get = "r" :=
  (claim_eq_resolved_values Parameters.new Parameters.new (by decide) (by decide)
    (ParamDyn.custom "D" "r") "r").2

end LlmChain
